import Mathlib

/-!
Verification of the repeating-pattern detector in `repetition_detector.py`.

The detector's loops are embedded with explicit fuel (structural recursion),
so every definition is executable.  A call of `find_all_occurrences` on an
empty pattern does not terminate in the source; the fueled embedding returns
`none` for every fuel value in that case, and for non-empty patterns the
chosen fuel is proved sufficient, so `none` faithfully marks divergence.
Python's float division in `find_internal_repetition` is modelled by exact
rational division, and `int(...)` truncation by natural-number division.
-/

/-- Python slice `t[s : s+L]` on a string viewed as a list of characters. -/
def strSlice (t : List Char) (s L : Nat) : List Char :=
  (t.drop s).take L

/-- The pattern `p` occurs in `t` at index `i` (as a contiguous substring). -/
def occursAt (t p : List Char) (i : Nat) : Prop :=
  i + p.length ≤ t.length ∧ strSlice t i p.length = p

instance (t p : List Char) (i : Nat) : Decidable (occursAt t p i) := by
  unfold occursAt; infer_instance

/-- Fueled scan underlying Python's `text.find(pattern, start)`: the least
index `pos ≥ start` with `pos + len(pattern) ≤ len(text)` whose slice equals
the pattern, else `none`. -/
def strFindAux : Nat → List Char → List Char → Nat → Option Nat
  | 0, _, _, _ => none
  | fuel+1, t, p, start =>
    if t.length < start + p.length then none
    else if strSlice t start p.length = p then some start
    else strFindAux fuel t p (start+1)

/-- Python's `text.find(pattern, start)` (`none` for `-1`).  Fuel
`t.length + 2` always suffices, as proved below. -/
def strFind (t p : List Char) (start : Nat) : Option Nat :=
  strFindAux (t.length + 2) t p start

/-- Fueled embedding of the `while True` loop of `find_all_occurrences`:
repeatedly find the next occurrence at or after `start` and advance `start`
past it.  Fuel exhaustion yields `none`. -/
def findAllOccAux : Nat → List Char → List Char → Nat → Option (List Nat)
  | 0, _, _, _ => none
  | fuel+1, t, p, start =>
    match strFind t p start with
    | none => some []
    | some pos => (findAllOccAux fuel t p (pos + p.length)).map (pos :: ·)

/-- `find_all_occurrences(text, pattern)` from the source: the greedy list of
non-overlapping occurrence positions, scanning left to right.  For a
non-empty pattern the fuel `t.length + 1` is sufficient (proved below); for
the empty pattern the source loop never terminates and the value is `none`. -/
def find_all_occurrences (t p : List Char) : Option (List Nat) :=
  findAllOccAux (t.length + 1) t p 0

/-- Number of greedy non-overlapping occurrences of `p` in `t` (0 when the
scan diverges). -/
def occCount (t p : List Char) : Nat :=
  ((find_all_occurrences t p).map List.length).getD 0

/-- Fueled embedding of the inner `while start_pos + current_length <=
len(text)` loop of `find_repeating_patterns`: extend the candidate pattern at
offset `s` one character at a time while it still has at least `minOcc`
non-overlapping occurrences, remembering the last success in `best`. -/
def extendPattern : Nat → List Char → Nat → Nat → Nat →
    Option (List Char × Nat × List Nat) → Option (Option (List Char × Nat × List Nat))
  | 0, _, _, _, _, _ => none
  | fuel+1, t, minOcc, s, curLen, best =>
    if s + curLen ≤ t.length then
      match find_all_occurrences t (strSlice t s curLen) with
      | none => none
      | some positions =>
        if minOcc ≤ positions.length then
          extendPattern fuel t minOcc s (curLen+1)
            (some (strSlice t s curLen, positions.length, positions))
        else some best
    else some best

/-- Text indices claimed by a reported match: `range(pos, pos + len(pattern))`
for each occurrence position. -/
def claimSpan (plen : Nat) (positions : List Nat) : List Nat :=
  positions.flatMap (fun pos => List.range' pos plen)

/-- The outer `for start_pos in range(...)` loop of `find_repeating_patterns`:
skip claimed offsets, run the extension loop, record the best pattern found
(annotated here with its starting offset) and claim its occurrence spans. -/
def scanLoop (t : List Char) (minLen minOcc : Nat) :
    List Nat → List Nat → List (Nat × (List Char × Nat × List Nat)) →
    Option (List (Nat × (List Char × Nat × List Nat)))
  | [], _, acc => some acc
  | s :: rest, claimed, acc =>
    if s ∈ claimed then scanLoop t minLen minOcc rest claimed acc
    else
      match extendPattern (t.length + 2) t minOcc s minLen none with
      | none => none
      | some none => scanLoop t minLen minOcc rest claimed acc
      | some (some (pat, cnt, poss)) =>
        scanLoop t minLen minOcc rest (claimed ++ claimSpan pat.length poss)
          (acc ++ [(s, (pat, cnt, poss))])

/-- Number of outer-loop iterations: Python's `range(len(text) - min_length + 1)`
(empty when `min_length > len(text)`, since a Python range with a negative or
zero bound is empty). -/
def offsetBound (t : List Char) (minLen : Nat) : Nat :=
  if minLen ≤ t.length then t.length - minLen + 1 else 0

/-- `find_repeating_patterns` up to the final sort, with each recorded match
annotated by the starting offset at which the scan found it. -/
def findRepeatingScan (t : List Char) (min_length min_occurrences : Nat) :
    Option (List (Nat × (List Char × Nat × List Nat))) :=
  if t.length < min_length * min_occurrences then some []
  else scanLoop t min_length min_occurrences (List.range (offsetBound t min_length)) [] []

/-- Sort order of the final `results.sort(key=lambda x: (-x[1], -len(x[0])))`:
occurrence count descending, then pattern length descending. -/
def sortKeyLe (a b : List Char × Nat × List Nat) : Prop :=
  b.2.1 < a.2.1 ∨ (a.2.1 = b.2.1 ∧ b.1.length ≤ a.1.length)

instance : DecidableRel sortKeyLe := fun a b => by
  unfold sortKeyLe; infer_instance

/-- `find_repeating_patterns(text, min_length, min_occurrences)` from the
source: the recorded `(pattern, count, positions)` triples, stably sorted by
`(-count, -len(pattern))`.  `none` marks divergence of the source program. -/
def find_repeating_patterns (t : List Char) (min_length min_occurrences : Nat) :
    Option (List (List Char × Nat × List Nat)) :=
  (findRepeatingScan t min_length min_occurrences).map
    (fun l => List.insertionSort sortKeyLe (l.map Prod.snd))

/-! ### Correctness of the `strFind` scan -/

theorem strSlice_length (t : List Char) (s L : Nat) :
    (strSlice t s L).length = min L (t.length - s) := by
  simp [strSlice]

theorem strSlice_length_of_le {t : List Char} {s L : Nat} (h : s + L ≤ t.length) :
    (strSlice t s L).length = L := by
  rw [strSlice_length]; omega

theorem strFindAux_some {fuel : Nat} {t p : List Char} {start pos : Nat}
    (h : strFindAux fuel t p start = some pos) :
    start ≤ pos ∧ occursAt t p pos ∧ ∀ j, start ≤ j → j < pos → ¬ occursAt t p j := by
  induction fuel generalizing start with
  | zero => simp [strFindAux] at h
  | succ fuel ih =>
    unfold strFindAux at h
    by_cases hb : t.length < start + p.length
    · simp [hb] at h
    · rw [if_neg hb] at h
      by_cases hm : strSlice t start p.length = p
      · rw [if_pos hm] at h
        cases h
        exact ⟨le_refl _, ⟨by omega, hm⟩, fun j h1 h2 _ => by omega⟩
      · rw [if_neg hm] at h
        obtain ⟨h1, h2, h3⟩ := ih h
        refine ⟨by omega, h2, fun j hj1 hj2 hocc => ?_⟩
        rcases Nat.eq_or_lt_of_le hj1 with rfl | hj1'
        · exact hm hocc.2
        · exact h3 j hj1' hj2 hocc

theorem strFindAux_none {fuel : Nat} {t p : List Char} {start : Nat}
    (hfuel : t.length + 2 ≤ fuel + start)
    (h : strFindAux fuel t p start = none) :
    ∀ j, start ≤ j → ¬ occursAt t p j := by
  induction fuel generalizing start with
  | zero =>
    intro j hj hocc
    have := hocc.1
    omega
  | succ fuel ih =>
    unfold strFindAux at h
    by_cases hb : t.length < start + p.length
    · intro j hj hocc
      have := hocc.1
      omega
    · rw [if_neg hb] at h
      by_cases hm : strSlice t start p.length = p
      · rw [if_pos hm] at h; cases h
      · rw [if_neg hm] at h
        intro j hj hocc
        rcases Nat.eq_or_lt_of_le hj with rfl | hj'
        · exact hm hocc.2
        · exact ih (by omega) h j hj' hocc

theorem strFind_some {t p : List Char} {start pos : Nat}
    (h : strFind t p start = some pos) :
    start ≤ pos ∧ occursAt t p pos ∧ ∀ j, start ≤ j → j < pos → ¬ occursAt t p j :=
  strFindAux_some h

theorem strFind_none {t p : List Char} {start : Nat}
    (h : strFind t p start = none) :
    ∀ j, start ≤ j → ¬ occursAt t p j :=
  strFindAux_none (by omega) h

/-- If some occurrence exists at or after `start`, the scan finds one no
later than it. -/
theorem strFind_le {t p : List Char} {start j : Nat}
    (hj : start ≤ j) (hocc : occursAt t p j) :
    ∃ pos, strFind t p start = some pos ∧ pos ≤ j := by
  cases hf : strFind t p start with
  | none => exact absurd hocc (strFind_none hf j hj)
  | some pos =>
    refine ⟨pos, rfl, ?_⟩
    by_contra hlt
    exact (strFind_some hf).2.2 j hj (by omega) hocc

/-! ### Properties of the greedy occurrence scan -/

/-- Every position returned by the fueled occurrence scan is at or after the
scan start, is a genuine occurrence, and the positions are pairwise separated
by at least the pattern length. -/
theorem findAllOccAux_sound {fuel : Nat} {t p : List Char} {start : Nat} {ps : List Nat}
    (h : findAllOccAux fuel t p start = some ps) :
    (∀ x ∈ ps, start ≤ x ∧ occursAt t p x) ∧
      ps.Pairwise (fun a b => a + p.length ≤ b) := by
  induction fuel generalizing start ps with
  | zero => simp [findAllOccAux] at h
  | succ fuel ih =>
    unfold findAllOccAux at h
    cases hf : strFind t p start with
    | none =>
      rw [hf] at h
      cases h
      exact ⟨by simp, List.Pairwise.nil⟩
    | some pos =>
      rw [hf] at h
      dsimp only at h
      cases hrec : findAllOccAux fuel t p (pos + p.length) with
      | none => rw [hrec] at h; cases h
      | some ps' =>
        rw [hrec] at h
        cases h
        obtain ⟨hmem, hpair⟩ := ih hrec
        obtain ⟨hge, hocc, _⟩ := strFind_some hf
        refine ⟨?_, ?_⟩
        · intro x hx
          rcases List.mem_cons.mp hx with rfl | hx'
          · exact ⟨hge, hocc⟩
          · exact ⟨le_trans hge (le_trans (Nat.le_add_right _ _) (hmem x hx').1), (hmem x hx').2⟩
        · exact List.pairwise_cons.mpr ⟨fun x hx => (hmem x hx).1, hpair⟩

/-- With a non-empty pattern and enough fuel, the occurrence scan terminates. -/
theorem findAllOccAux_isSome {t p : List Char} (hp : 1 ≤ p.length) :
    ∀ {fuel start : Nat}, start ≤ t.length → t.length + 1 ≤ fuel + start →
      (findAllOccAux fuel t p start).isSome := by
  intro fuel
  induction fuel with
  | zero => intro start h1 h2; omega
  | succ fuel ih =>
    intro start h1 h2
    unfold findAllOccAux
    cases hf : strFind t p start with
    | none => simp
    | some pos =>
      obtain ⟨hge, hocc, _⟩ := strFind_some hf
      have hb : pos + p.length ≤ t.length := hocc.1
      have := ih (show pos + p.length ≤ t.length by omega) (by omega)
      cases hrec : findAllOccAux fuel t p (pos + p.length) with
      | none => rw [hrec] at this; simp at this
      | some ps' => simp [hrec]

/-- Greedy maximality: any pairwise non-overlapping list of occurrences
located at or after `start` is no longer than the greedy scan's result. -/
theorem findAllOccAux_max {fuel : Nat} {t p : List Char} {start : Nat} {ps : List Nat}
    (h : findAllOccAux fuel t p start = some ps) :
    ∀ qs : List Nat, (∀ q ∈ qs, start ≤ q ∧ occursAt t p q) →
      qs.Pairwise (fun a b => a + p.length ≤ b) → qs.length ≤ ps.length := by
  induction fuel generalizing start ps with
  | zero => simp [findAllOccAux] at h
  | succ fuel ih =>
    intro qs hq hqpair
    unfold findAllOccAux at h
    cases hf : strFind t p start with
    | none =>
      rw [hf] at h
      cases h
      cases qs with
      | nil => simp
      | cons q qs' =>
        exact absurd (hq q (by simp)).2 (strFind_none hf q (hq q (by simp)).1)
    | some pos =>
      rw [hf] at h
      dsimp only at h
      cases hrec : findAllOccAux fuel t p (pos + p.length) with
      | none => rw [hrec] at h; cases h
      | some ps' =>
        rw [hrec] at h
        cases h
        cases qs with
        | nil => simp
        | cons q qs' =>
          obtain ⟨hq1, hq2⟩ := hq q (by simp)
          have hposq : pos ≤ q := by
            by_contra hlt
            exact (strFind_some hf).2.2 q hq1 (by omega) hq2
          have hqs' : ∀ x ∈ qs', pos + p.length ≤ x ∧ occursAt t p x := by
            intro x hx
            have hgap := (List.pairwise_cons.mp hqpair).1 x hx
            exact ⟨by omega, (hq x (by simp [hx])).2⟩
          have := ih hrec qs' (fun x hx => (hqs' x hx)) (List.pairwise_cons.mp hqpair).2
          simpa using Nat.succ_le_succ this

/-- With an empty pattern the occurrence scan never terminates: it returns
`none` for every fuel value (the Python loop rescans position `start`
forever). -/
theorem findAllOccAux_empty_diverges (t : List Char) :
    ∀ (fuel start : Nat), start ≤ t.length → findAllOccAux fuel t ([] : List Char) start = none := by
  intro fuel
  induction fuel with
  | zero => intro start _; rfl
  | succ fuel ih =>
    intro start hs
    unfold findAllOccAux
    have hf : strFind t ([] : List Char) start = some start := by
      unfold strFind strFindAux
      rw [if_neg (by simp; omega), if_pos (by simp [strSlice])]
    rw [hf]
    simp [ih start hs]

/-! ### Monotonicity of the occurrence count in the pattern length -/

theorem strSlice_take {t : List Char} {s L L' : Nat} (h : L ≤ L') :
    (strSlice t s L').take L = strSlice t s L := by
  simp [strSlice, List.take_take, Nat.min_eq_left h]

/-- An occurrence of a pattern is an occurrence of each of its prefixes. -/
theorem occursAt_take {t p' : List Char} {L i : Nat}
    (h : occursAt t p' i) (hL : L ≤ p'.length) : occursAt t (p'.take L) i := by
  obtain ⟨h1, h2⟩ := h
  have hlen : (p'.take L).length = L := by simp [Nat.min_eq_left hL]
  constructor
  · omega
  · rw [hlen, ← h2, strSlice, strSlice, List.take_take, Nat.min_eq_left]
    omega

theorem find_all_occurrences_isSome {t p : List Char} (hp : 1 ≤ p.length) :
    ∃ ps, find_all_occurrences t p = some ps := by
  have := @findAllOccAux_isSome t p hp (t.length + 1) 0 (by omega) (by omega)
  exact Option.isSome_iff_exists.mp this

theorem occCount_eq {t p : List Char} {ps : List Nat}
    (h : find_all_occurrences t p = some ps) : occCount t p = ps.length := by
  simp [occCount, h]

/-- Extending a candidate pattern can only lower its greedy non-overlapping
occurrence count. -/
theorem occCount_mono {t : List Char} {s L L' : Nat}
    (h1 : 1 ≤ L) (hLL : L ≤ L') (hb : s + L' ≤ t.length) :
    occCount t (strSlice t s L') ≤ occCount t (strSlice t s L) := by
  have hlen : (strSlice t s L).length = L := strSlice_length_of_le (by omega)
  have hlen' : (strSlice t s L').length = L' := strSlice_length_of_le hb
  obtain ⟨ps, hps⟩ := @find_all_occurrences_isSome t (strSlice t s L) (by omega)
  obtain ⟨ps', hps'⟩ := @find_all_occurrences_isSome t (strSlice t s L') (by omega)
  rw [occCount_eq hps, occCount_eq hps']
  obtain ⟨hmem', hpair'⟩ := findAllOccAux_sound hps'
  refine findAllOccAux_max hps ps' ?_ ?_
  · intro q hq
    refine ⟨Nat.zero_le _, ?_⟩
    have := @occursAt_take t (strSlice t s L') L q (hmem' q hq).2 (by omega)
    rwa [strSlice_take hLL] at this
  · exact hpair'.imp (fun {a b} hab => by omega)

/-! ### The extension loop -/

/-- What `find_repeating_patterns` guarantees for a match recorded at scan
offset `s`: the pattern is the slice of the text at `s` of its own length,
at least `min_length` long, its stored positions and count are exactly those
of `find_all_occurrences`, the count meets `min_occurrences`, and no longer
slice starting at `s` still meets the occurrence threshold. -/
def goodMatch (t : List Char) (minLen minOcc s : Nat)
    (m : List Char × Nat × List Nat) : Prop :=
  m.1 = strSlice t s m.1.length ∧ minLen ≤ m.1.length ∧ s + m.1.length ≤ t.length ∧
    find_all_occurrences t m.1 = some m.2.2 ∧ m.2.1 = m.2.2.length ∧ minOcc ≤ m.2.1 ∧
    ∀ L', m.1.length < L' → s + L' ≤ t.length →
      occCount t (strSlice t s L') < minOcc

theorem extendPattern_spec {t : List Char} {minOcc minLen s : Nat} :
    ∀ {fuel curLen : Nat} {best : Option (List Char × Nat × List Nat)}
      {res : Option (List Char × Nat × List Nat)},
      extendPattern fuel t minOcc s curLen best = some res →
      1 ≤ curLen → minLen ≤ curLen →
      (∀ m, best = some m → m.1 = strSlice t s (curLen - 1) ∧
        m.1.length = curLen - 1 ∧ minLen ≤ curLen - 1 ∧ s + (curLen - 1) ≤ t.length ∧
        find_all_occurrences t m.1 = some m.2.2 ∧ m.2.1 = m.2.2.length ∧ minOcc ≤ m.2.1) →
      ∀ m, res = some m → goodMatch t minLen minOcc s m := by
  intro fuel
  induction fuel with
  | zero => intro curLen best res h; simp [extendPattern] at h
  | succ fuel ih =>
    intro curLen best res h hcur1 hcurmin hbest m hres
    unfold extendPattern at h
    by_cases hin : s + curLen ≤ t.length
    · rw [if_pos hin] at h
      cases hfa : find_all_occurrences t (strSlice t s curLen) with
      | none => rw [hfa] at h; cases h
      | some positions =>
        rw [hfa] at h
        dsimp only at h
        by_cases hcnt : minOcc ≤ positions.length
        · rw [if_pos hcnt] at h
          refine ih h (by omega) (by omega) ?_ m hres
          intro m' hm'
          cases hm'
          have hlen : (strSlice t s curLen).length = curLen := strSlice_length_of_le hin
          have e1 : curLen + 1 - 1 = curLen := by omega
          rw [e1]
          exact ⟨rfl, hlen, hcurmin, hin, hfa, rfl, hcnt⟩
        · rw [if_neg hcnt] at h
          cases h
          obtain ⟨hm1, hm2, hm3, hm4, hm5, hm6, hm7⟩ := hbest m hres
          unfold goodMatch
          refine ⟨by rw [hm2, ← hm1], by omega, by omega, hm5, hm6, hm7, ?_⟩
          intro L' hL' hbnd
          rw [hm2] at hL'
          have hge : curLen ≤ L' := by omega
          have := occCount_mono hcur1 hge hbnd
          have hceq : occCount t (strSlice t s curLen) = positions.length := occCount_eq hfa
          omega
    · rw [if_neg hin] at h
      cases h
      obtain ⟨hm1, hm2, hm3, hm4, hm5, hm6, hm7⟩ := hbest m hres
      unfold goodMatch
      refine ⟨by rw [hm2, ← hm1], by omega, by omega, hm5, hm6, hm7, ?_⟩
      intro L' hL' hbnd
      rw [hm2] at hL'
      omega

/-! ### The outer offset scan -/

/-- Every match in the scan output either was already accumulated or was
produced by the extension loop at its recorded offset. -/
theorem scanLoop_sound {t : List Char} {minLen minOcc : Nat} :
    ∀ {offs claimed : List Nat} {acc l : List (Nat × (List Char × Nat × List Nat))},
      scanLoop t minLen minOcc offs claimed acc = some l →
      ∀ e ∈ l, e ∈ acc ∨
        extendPattern (t.length + 2) t minOcc e.1 minLen none = some (some e.2) := by
  intro offs
  induction offs with
  | nil =>
    intro claimed acc l h e he
    cases h
    exact Or.inl he
  | cons s rest ih =>
    intro claimed acc l h e he
    unfold scanLoop at h
    by_cases hs : s ∈ claimed
    · rw [if_pos hs] at h
      exact ih h e he
    · rw [if_neg hs] at h
      cases hext : extendPattern (t.length + 2) t minOcc s minLen none with
      | none => rw [hext] at h; cases h
      | some ob =>
        rw [hext] at h
        cases ob with
        | none => exact ih h e he
        | some m =>
          rcases ih h e he with hacc | hprod
          · rcases List.mem_append.mp hacc with h1 | h2
            · exact Or.inl h1
            · simp only [List.mem_singleton] at h2
              subst h2
              exact Or.inr hext
          · exact Or.inr hprod

/-- The offsets recorded past the accumulator form a sublist of the scanned
offset list; in particular they are processed in order and never repeat. -/
theorem scanLoop_offsets {t : List Char} {minLen minOcc : Nat} :
    ∀ {offs claimed : List Nat} {acc l : List (Nat × (List Char × Nat × List Nat))},
      scanLoop t minLen minOcc offs claimed acc = some l →
      ∃ extra, l = acc ++ extra ∧ (extra.map Prod.fst).Sublist offs := by
  intro offs
  induction offs with
  | nil =>
    intro claimed acc l h
    cases h
    exact ⟨[], by simp⟩
  | cons s rest ih =>
    intro claimed acc l h
    unfold scanLoop at h
    by_cases hs : s ∈ claimed
    · rw [if_pos hs] at h
      obtain ⟨extra, he, hsub⟩ := ih h
      exact ⟨extra, he, hsub.trans (List.sublist_cons_self s rest)⟩
    · rw [if_neg hs] at h
      cases hext : extendPattern (t.length + 2) t minOcc s minLen none with
      | none => rw [hext] at h; cases h
      | some ob =>
        rw [hext] at h
        cases ob with
        | none =>
          obtain ⟨extra, he, hsub⟩ := ih h
          exact ⟨extra, he, hsub.trans (List.sublist_cons_self s rest)⟩
        | some m =>
          obtain ⟨extra, he, hsub⟩ := ih h
          refine ⟨(s, m) :: extra, by simpa using he, ?_⟩
          simpa using List.Sublist.cons₂ s hsub

/-- Invariant of the claiming discipline: provided every already-accumulated
match has its occurrence spans inside `claimed`, no later-recorded match's
scan offset lies in an earlier-recorded match's occurrence spans. -/
theorem scanLoop_claim_free {t : List Char} {minLen minOcc : Nat} :
    ∀ {offs claimed : List Nat} {acc l : List (Nat × (List Char × Nat × List Nat))},
      scanLoop t minLen minOcc offs claimed acc = some l →
      acc.Pairwise (fun a b => b.1 ∉ claimSpan a.2.1.length a.2.2.2) →
      (∀ e ∈ acc, ∀ i ∈ claimSpan e.2.1.length e.2.2.2, i ∈ claimed) →
      l.Pairwise (fun a b => b.1 ∉ claimSpan a.2.1.length a.2.2.2) := by
  intro offs
  induction offs with
  | nil =>
    intro claimed acc l h hpair _
    cases h
    exact hpair
  | cons s rest ih =>
    intro claimed acc l h hpair hclaim
    unfold scanLoop at h
    by_cases hs : s ∈ claimed
    · rw [if_pos hs] at h
      exact ih h hpair hclaim
    · rw [if_neg hs] at h
      cases hext : extendPattern (t.length + 2) t minOcc s minLen none with
      | none => rw [hext] at h; cases h
      | some ob =>
        rw [hext] at h
        cases ob with
        | none => exact ih h hpair hclaim
        | some m =>
          refine ih h ?_ ?_
          · rw [List.pairwise_append]
            refine ⟨hpair, by simp, ?_⟩
            intro a ha b hb
            simp only [List.mem_singleton] at hb
            subst hb
            intro hcontra
            exact hs (hclaim a ha s hcontra)
          · intro e he i hi
            rcases List.mem_append.mp he with h1 | h2
            · exact List.mem_append_left _ (hclaim e h1 i hi)
            · simp only [List.mem_singleton] at h2
              subst h2
              exact List.mem_append_right _ hi

/-- With enough fuel (and a positive current length) the extension loop
always terminates. -/
theorem extendPattern_isSome {t : List Char} {minOcc s : Nat} :
    ∀ {fuel curLen : Nat} {best : Option (List Char × Nat × List Nat)},
      1 ≤ curLen → s + curLen ≤ t.length + 1 → t.length + 2 ≤ fuel + s + curLen →
      (extendPattern fuel t minOcc s curLen best).isSome := by
  intro fuel
  induction fuel with
  | zero => intro curLen best h1 h2 h3; omega
  | succ fuel ih =>
    intro curLen best h1 h2 h3
    unfold extendPattern
    by_cases hin : s + curLen ≤ t.length
    · rw [if_pos hin]
      have hlen : (strSlice t s curLen).length = curLen := strSlice_length_of_le hin
      obtain ⟨ps, hps⟩ := @find_all_occurrences_isSome t (strSlice t s curLen) (by omega)
      rw [hps]
      dsimp only
      by_cases hcnt : minOcc ≤ ps.length
      · rw [if_pos hcnt]
        exact ih (by omega) (by omega) (by omega)
      · rw [if_neg hcnt]; simp
    · rw [if_neg hin]; simp

/-- With `min_length ≥ 1` the outer scan terminates. -/
theorem scanLoop_isSome {t : List Char} {minLen minOcc : Nat} (h1 : 1 ≤ minLen) :
    ∀ {offs claimed : List Nat} {acc : List (Nat × (List Char × Nat × List Nat))},
      (∀ s ∈ offs, s + minLen ≤ t.length) →
      (scanLoop t minLen minOcc offs claimed acc).isSome := by
  intro offs
  induction offs with
  | nil => intro claimed acc _; simp [scanLoop]
  | cons s rest ih =>
    intro claimed acc hb
    unfold scanLoop
    by_cases hs : s ∈ claimed
    · rw [if_pos hs]
      exact ih fun x hx => hb x (by simp [hx])
    · rw [if_neg hs]
      have hsb : s + minLen ≤ t.length := hb s (by simp)
      have := @extendPattern_isSome t minOcc s (t.length + 2) minLen none h1
        (by omega) (by omega)
      cases hext : extendPattern (t.length + 2) t minOcc s minLen none with
      | none => rw [hext] at this; simp at this
      | some ob =>
        cases ob with
        | none => exact ih fun x hx => hb x (by simp [hx])
        | some m => exact ih fun x hx => hb x (by simp [hx])

/-! ### Top-level facts about `find_repeating_patterns` -/

/-- Every match recorded by the scan satisfies the per-offset guarantee. -/
theorem findRepeatingScan_good {t : List Char} {minLen minOcc : Nat}
    {l : List (Nat × (List Char × Nat × List Nat))} (h1 : 1 ≤ minLen)
    (h : findRepeatingScan t minLen minOcc = some l) :
    ∀ e ∈ l, goodMatch t minLen minOcc e.1 e.2 := by
  intro e he
  unfold findRepeatingScan at h
  by_cases hg : t.length < minLen * minOcc
  · rw [if_pos hg] at h
    cases h
    cases he
  · rw [if_neg hg] at h
    rcases scanLoop_sound h e he with habs | hprod
    · cases habs
    · exact extendPattern_spec hprod h1 (le_refl _) (fun m hm => by cases hm) e.2 rfl

theorem findRepeatingScan_isSome {t : List Char} {minLen minOcc : Nat} (h1 : 1 ≤ minLen) :
    (findRepeatingScan t minLen minOcc).isSome := by
  unfold findRepeatingScan
  by_cases hg : t.length < minLen * minOcc
  · rw [if_pos hg]; rfl
  · rw [if_neg hg]
    apply scanLoop_isSome h1
    intro s hs
    rw [List.mem_range] at hs
    unfold offsetBound at hs
    by_cases hml : minLen ≤ t.length
    · rw [if_pos hml] at hs; omega
    · rw [if_neg hml] at hs; omega

/-- With `min_length = 0` the very first candidate pattern is empty, so the
occurrence scan — and with it the whole search — never terminates. -/
theorem findRepeatingScan_zero (t : List Char) (minOcc : Nat) :
    findRepeatingScan t 0 minOcc = none := by
  have hfa : find_all_occurrences t ([] : List Char) = none := by
    unfold find_all_occurrences
    exact findAllOccAux_empty_diverges t (t.length + 1) 0 (Nat.zero_le _)
  have hext : extendPattern (t.length + 2) t minOcc 0 0 none = none := by
    show extendPattern (t.length + 1 + 1) t minOcc 0 0 none = none
    unfold extendPattern
    rw [if_pos (by omega)]
    have hsl : strSlice t 0 0 = ([] : List Char) := rfl
    rw [hsl, hfa]
  unfold findRepeatingScan
  rw [if_neg (by simp)]
  have hb : offsetBound t 0 = t.length + 1 := by simp [offsetBound]
  rw [hb, List.range_succ_eq_map]
  unfold scanLoop
  rw [if_neg (by simp), hext]

/-- A match in the sorted output comes from some recorded offset of the scan. -/
theorem find_repeating_patterns_mem {t : List Char} {minLen minOcc : Nat}
    {l : List (List Char × Nat × List Nat)} {m : List Char × Nat × List Nat}
    (h : find_repeating_patterns t minLen minOcc = some l) (hm : m ∈ l) :
    ∃ sl, findRepeatingScan t minLen minOcc = some sl ∧ ∃ s, (s, m) ∈ sl := by
  unfold find_repeating_patterns at h
  cases hscan : findRepeatingScan t minLen minOcc with
  | none => rw [hscan] at h; cases h
  | some sl =>
    rw [hscan] at h
    cases h
    refine ⟨sl, rfl, ?_⟩
    have : m ∈ sl.map Prod.snd := (List.mem_insertionSort sortKeyLe).mp hm
    obtain ⟨e, he, hesnd⟩ := List.mem_map.mp this
    exact ⟨e.1, by rw [← hesnd]; exact he⟩

/-! ### Sort order is total and transitive -/

instance : IsTotal (List Char × Nat × List Nat) sortKeyLe := by
  constructor
  intro a b
  unfold sortKeyLe
  rcases Nat.lt_trichotomy a.2.1 b.2.1 with h | h | h
  · exact Or.inr (Or.inl h)
  · rcases Nat.le_total b.1.length a.1.length with h2 | h2
    · exact Or.inl (Or.inr ⟨h, h2⟩)
    · exact Or.inr (Or.inr ⟨h.symm, h2⟩)
  · exact Or.inl (Or.inl h)

instance : IsTrans (List Char × Nat × List Nat) sortKeyLe := by
  constructor
  intro a b c hab hbc
  unfold sortKeyLe at *
  rcases hab with h1 | ⟨h1, h1'⟩ <;> rcases hbc with h2 | ⟨h2, h2'⟩
  · exact Or.inl (by omega)
  · exact Or.inl (by omega)
  · exact Or.inl (by omega)
  · exact Or.inr ⟨by omega, by omega⟩

/-! ### Internal repetition -/

/-- Return record of `find_internal_repetition`.  Python stores
`repetitions = len(pattern) / unit_length` as a float; it is modelled by the
exact rational. -/
structure InternalRep where
  unit : List Char
  repetitions : ℚ
  is_exact : Bool
deriving DecidableEq, Repr

/-- Python's exact float value `len(pattern) / unit_length`, modelled as the
rational with that numerator and denominator. -/
def ratDiv (n d : Nat) : ℚ := mkRat n d

/-- Python's `unit * n` string repetition. -/
def repeatUnit (u : List Char) (n : Nat) : List Char :=
  (List.replicate n u).flatten

/-- The acceptance test of `find_internal_repetition` for a candidate unit
length: repeating the leading unit `len(pattern) // unitLength` times
reproduces the corresponding prefix of the pattern, and the trailing
remainder characters (if any) match a prefix of the unit. -/
def unitCriterion (p : List Char) (uL : Nat) : Prop :=
  repeatUnit (p.take uL) (p.length / uL) = p.take (p.length / uL * uL) ∧
    (p.length % uL = 0 ∨
      p.drop (p.length - p.length % uL) = (p.take uL).take (p.length % uL))

instance (p : List Char) (uL : Nat) : Decidable (unitCriterion p uL) := by
  unfold unitCriterion; infer_instance

/-- The `for unit_length in range(1, len(pattern) // 2 + 1)` search: `k`
counts the remaining candidate unit lengths, `uL` is the current one. -/
def findInternalAux (p : List Char) : Nat → Nat → Option InternalRep
  | 0, _ => none
  | k+1, uL =>
    if repeatUnit (p.take uL) (p.length / uL) = p.take (p.length / uL * uL) then
      if p.length % uL = 0 ∨
          p.drop (p.length - p.length % uL) = (p.take uL).take (p.length % uL) then
        some ⟨p.take uL, ratDiv p.length uL, p.length % uL == 0⟩
      else findInternalAux p k (uL+1)
    else findInternalAux p k (uL+1)

/-- `find_internal_repetition(pattern)` from the source: the first (smallest)
candidate unit length in `1 .. len(pattern) // 2` passing the acceptance
test, or `none`. -/
def find_internal_repetition (p : List Char) : Option InternalRep :=
  findInternalAux p (p.length / 2) 1

/-- The search returns the record built from the first accepted unit length,
and every smaller candidate in range fails the acceptance test. -/
theorem findInternalAux_sound {p : List Char} :
    ∀ {k uL : Nat} {r : InternalRep}, findInternalAux p k uL = some r →
      ∃ uL', uL ≤ uL' ∧ uL' < uL + k ∧ unitCriterion p uL' ∧
        (∀ j, uL ≤ j → j < uL' → ¬ unitCriterion p j) ∧
        r = ⟨p.take uL', ratDiv p.length uL', p.length % uL' == 0⟩ := by
  intro k
  induction k with
  | zero => intro uL r h; simp [findInternalAux] at h
  | succ k ih =>
    intro uL r h
    unfold findInternalAux at h
    by_cases h1 : repeatUnit (p.take uL) (p.length / uL) = p.take (p.length / uL * uL)
    · rw [if_pos h1] at h
      by_cases h2 : p.length % uL = 0 ∨
          p.drop (p.length - p.length % uL) = (p.take uL).take (p.length % uL)
      · rw [if_pos h2] at h
        cases h
        exact ⟨uL, le_refl _, by omega, ⟨h1, h2⟩, fun j hj1 hj2 => by omega, rfl⟩
      · rw [if_neg h2] at h
        obtain ⟨uL', ha, hb, hc, hd, he⟩ := ih h
        refine ⟨uL', by omega, by omega, hc, ?_, he⟩
        intro j hj1 hj2
        rcases Nat.eq_or_lt_of_le hj1 with rfl | hj1'
        · exact fun hcrit => h2 hcrit.2
        · exact hd j hj1' hj2
    · rw [if_neg h1] at h
      obtain ⟨uL', ha, hb, hc, hd, he⟩ := ih h
      refine ⟨uL', by omega, by omega, hc, ?_, he⟩
      intro j hj1 hj2
      rcases Nat.eq_or_lt_of_le hj1 with rfl | hj1'
      · exact fun hcrit => h1 hcrit.1
      · exact hd j hj1' hj2

/-- Top-level soundness of `find_internal_repetition`: the returned unit
length is the least one in `1 .. len(pattern) // 2` passing the test. -/
theorem find_internal_repetition_sound {p : List Char} {r : InternalRep}
    (h : find_internal_repetition p = some r) :
    ∃ uL', 1 ≤ uL' ∧ uL' ≤ p.length / 2 ∧ unitCriterion p uL' ∧
      (∀ j, 1 ≤ j → j < uL' → ¬ unitCriterion p j) ∧
      r = ⟨p.take uL', ratDiv p.length uL', p.length % uL' == 0⟩ := by
  obtain ⟨uL', ha, hb, hc, hd, he⟩ := findInternalAux_sound h
  exact ⟨uL', ha, by omega, hc, hd, he⟩

/-! ### Example inputs used by the witnesses -/

def exTextA : List Char := ['a', 'b', 'a', 'b', 'a', 'b']

def exTextB : List Char := ['a', 'b', 'a', 'b', 'b', 'a']

def exTextC : List Char := ['a', 'b', 'c']

def exUnitP : List Char := ['a', 'b', 'c', 'a', 'b', 'c']

/-! ### Claims -/

/-- C4: for every text shorter than `min_length * min_occurrences`,
`find_repeating_patterns` returns the empty list. -/
theorem claim4_short_text_empty (t : List Char) (minLen minOcc : Nat)
    (h : t.length < minLen * minOcc) :
    find_repeating_patterns t minLen minOcc = some [] := by
  unfold find_repeating_patterns findRepeatingScan
  rw [if_pos h]
  rfl

/-- C4 witness: a three-character text with thresholds 2 and 2. -/
theorem claim4_witness :
    exTextC.length < 2 * 2 ∧ find_repeating_patterns exTextC 2 2 = some [] :=
  ⟨by decide, claim4_short_text_empty exTextC 2 2 (by decide)⟩

/-- C9: on a pattern of length 1 `find_internal_repetition` returns `none`
without failing, since the candidate range `1 .. 1 / 2` is empty. -/
theorem claim9_length_one_none (p : List Char) (h : p.length = 1) :
    find_internal_repetition p = none := by
  unfold find_internal_repetition
  rw [h]
  rfl

/-- C9 witness: the single-character pattern `"a"`. -/
theorem claim9_witness :
    (['a'] : List Char).length = 1 ∧ find_internal_repetition ['a'] = none :=
  ⟨rfl, claim9_length_one_none ['a'] rfl⟩

/-- C5: the result list of `find_repeating_patterns` is sorted by occurrence
count descending, then by pattern length descending. -/
theorem claim5_sorted (t : List Char) (minLen minOcc : Nat)
    (l : List (List Char × Nat × List Nat))
    (h : find_repeating_patterns t minLen minOcc = some l) :
    l.Pairwise (fun a b => b.2.1 < a.2.1 ∨ (a.2.1 = b.2.1 ∧ b.1.length ≤ a.1.length)) := by
  unfold find_repeating_patterns at h
  cases hscan : findRepeatingScan t minLen minOcc with
  | none => rw [hscan] at h; cases h
  | some sl =>
    rw [hscan] at h
    cases h
    exact List.sorted_insertionSort sortKeyLe _

/-- C5 witness: the text `"ababba"` produces two matches in sorted order. -/
theorem claim5_witness :
    ∃ l, find_repeating_patterns exTextB 2 2 = some l ∧
      l.Pairwise (fun a b => b.2.1 < a.2.1 ∨ (a.2.1 = b.2.1 ∧ b.1.length ≤ a.1.length)) :=
  ⟨_, rfl, claim5_sorted exTextB 2 2 _ rfl⟩

/-- C3: for every reported match, the positions are strictly increasing with
non-overlapping spans, each position is an occurrence of the pattern, and the
count equals the number of positions. -/
theorem claim3_positions (t : List Char) (minLen minOcc : Nat)
    (l : List (List Char × Nat × List Nat)) (pat : List Char) (cnt : Nat) (poss : List Nat)
    (h : find_repeating_patterns t minLen minOcc = some l)
    (hm : (pat, cnt, poss) ∈ l) :
    poss.Pairwise (fun a b => a + pat.length ≤ b) ∧ poss.Pairwise (· < ·) ∧
      (∀ pos ∈ poss, occursAt t pat pos) ∧ cnt = poss.length := by
  obtain ⟨sl, hscan, s, hmem⟩ := find_repeating_patterns_mem h hm
  rcases Nat.eq_zero_or_pos minLen with rfl | h1
  · rw [findRepeatingScan_zero] at hscan
    cases hscan
  · have hg := findRepeatingScan_good h1 hscan (s, (pat, cnt, poss)) hmem
    obtain ⟨_, hlen, _, hfa, hcnt, _, _⟩ := hg
    obtain ⟨hmemo, hpair⟩ := findAllOccAux_sound hfa
    have hplen : 1 ≤ pat.length := le_trans h1 hlen
    refine ⟨hpair, hpair.imp ?_, fun pos hp => (hmemo pos hp).2, hcnt⟩
    intro a b hab
    omega

/-- C3 witness: the match reported for `"ababab"` with thresholds 2 and 2. -/
theorem claim3_witness :
    find_repeating_patterns exTextA 2 2 = some [(['a', 'b'], 3, [0, 2, 4])] ∧
      ([0, 2, 4] : List Nat).Pairwise (fun a b => a + (['a', 'b'] : List Char).length ≤ b) ∧
      (3 : Nat) = ([0, 2, 4] : List Nat).length :=
  ⟨rfl,
    (claim3_positions exTextA 2 2 _ ['a', 'b'] 3 [0, 2, 4] rfl (by decide)).1,
    (claim3_positions exTextA 2 2 _ ['a', 'b'] 3 [0, 2, 4] rfl (by decide)).2.2.2⟩

/-- C1: under `min_length ≥ 1` and `min_occurrences ≥ 2`, the scan records at
most one match per starting offset, and the match recorded for offset `s` is
the longest substring starting at `s` whose greedy non-overlapping occurrence
count still meets `min_occurrences`: no strictly longer substring starting at
`s` also meets the threshold. -/
theorem claim1_unique_longest (t : List Char) (minLen minOcc : Nat)
    (h1 : 1 ≤ minLen) (h2 : 2 ≤ minOcc)
    (l : List (Nat × (List Char × Nat × List Nat)))
    (h : findRepeatingScan t minLen minOcc = some l) :
    find_repeating_patterns t minLen minOcc =
        some (List.insertionSort sortKeyLe (l.map Prod.snd)) ∧
      (l.map Prod.fst).Pairwise (· ≠ ·) ∧
      ∀ e ∈ l, e.2.1 = strSlice t e.1 e.2.1.length ∧ minLen ≤ e.2.1.length ∧
        e.1 + e.2.1.length ≤ t.length ∧ minOcc ≤ occCount t e.2.1 ∧
        ∀ L', e.2.1.length < L' → e.1 + L' ≤ t.length →
          occCount t (strSlice t e.1 L') < minOcc := by
  refine ⟨by rw [find_repeating_patterns, h]; rfl, ?_, ?_⟩
  · unfold findRepeatingScan at h
    by_cases hg : t.length < minLen * minOcc
    · rw [if_pos hg] at h
      cases h
      simp
    · rw [if_neg hg] at h
      obtain ⟨extra, hl, hsub⟩ := scanLoop_offsets h
      simp only [List.nil_append] at hl
      subst hl
      have hp : (l.map Prod.fst).Pairwise (· < ·) :=
        List.Pairwise.sublist hsub (List.pairwise_lt_range _)
      exact hp.imp fun {a b} hab => Nat.ne_of_lt hab
  · intro e he
    have hg := findRepeatingScan_good h1 h e he
    obtain ⟨hpat, hlen, hbnd, hfa, hcnt, hocc, hlong⟩ := hg
    refine ⟨hpat, hlen, hbnd, ?_, hlong⟩
    rw [occCount_eq hfa]
    omega

/-- C1 witness: for `"ababab"` with thresholds 2 and 2 the single recorded
offset is 0 and the pattern `"ab"` cannot be extended while keeping two
non-overlapping occurrences. -/
theorem claim1_witness :
    ∃ l, findRepeatingScan exTextA 2 2 = some l ∧
      (l.map Prod.fst).Pairwise (· ≠ ·) ∧
      ∀ e ∈ l, ∀ L', e.2.1.length < L' → e.1 + L' ≤ exTextA.length →
        occCount exTextA (strSlice exTextA e.1 L') < 2 :=
  ⟨_, rfl, (claim1_unique_longest exTextA 2 2 (by decide) (by decide) _ rfl).2.1,
    fun e he => ((claim1_unique_longest exTextA 2 2 (by decide) (by decide) _ rfl).2.2
      e he).2.2.2.2⟩

/-- C2 counterexample: on `"ababba"` with thresholds 2 and 2 the detector
reports the two distinct matches `("ab", 2, [0, 2])` and `("ba", 2, [1, 4])`,
whose occurrence spans both cover text index 1 — so reported matches can
share a text position. -/
theorem claim2_counterexample :
    find_repeating_patterns exTextB 2 2 =
      some [(['a', 'b'], 2, [0, 2]), (['b', 'a'], 2, [1, 4])] ∧
      (['a', 'b'], 2, ([0, 2] : List Nat)) ≠ (['b', 'a'], 2, ([1, 4] : List Nat)) ∧
      1 ∈ claimSpan (['a', 'b'] : List Char).length [0, 2] ∧
      1 ∈ claimSpan (['b', 'a'] : List Char).length [1, 4] := by
  refine ⟨rfl, by decide, by decide, by decide⟩

/-- C2 amended: occurrence spans of two distinct reported matches may share
text positions (see the counterexample), but the claiming discipline does
hold for starting offsets: no match is recorded at a scan offset lying inside
the occurrence spans of any earlier-recorded match. -/
theorem claim2_amended (t : List Char) (minLen minOcc : Nat)
    (l : List (Nat × (List Char × Nat × List Nat)))
    (h : findRepeatingScan t minLen minOcc = some l) :
    find_repeating_patterns t minLen minOcc =
        some (List.insertionSort sortKeyLe (l.map Prod.snd)) ∧
      l.Pairwise (fun a b => b.1 ∉ claimSpan a.2.1.length a.2.2.2) := by
  refine ⟨by rw [find_repeating_patterns, h]; rfl, ?_⟩
  unfold findRepeatingScan at h
  by_cases hg : t.length < minLen * minOcc
  · rw [if_pos hg] at h
    cases h
    simp
  · rw [if_neg hg] at h
    exact scanLoop_claim_free h (by simp) (by simp)

/-- C2 amended witness: on `"ababba"` the second match's scan offset 4 lies
outside the first match's spans. -/
theorem claim2_amended_witness :
    ∃ l, findRepeatingScan exTextB 2 2 = some l ∧
      l.Pairwise (fun a b => b.1 ∉ claimSpan a.2.1.length a.2.2.2) :=
  ⟨_, rfl, (claim2_amended exTextB 2 2 _ rfl).2⟩

/-- C6: when `find_internal_repetition` reports an exact decomposition, the
stored repetition factor is the integer `len(pattern) / len(unit)` and the
unit concatenated that many times reconstructs the pattern exactly. -/
theorem claim6_exact_roundtrip (p : List Char) (r : InternalRep)
    (h : find_internal_repetition p = some r) (hx : r.is_exact = true) :
    r.repetitions = ((p.length / r.unit.length : Nat) : ℚ) ∧
      repeatUnit r.unit (p.length / r.unit.length) = p := by
  obtain ⟨uL, h1, h2, ⟨hc1, hc2⟩, hmin, hr⟩ := find_internal_repetition_sound h
  subst hr
  simp only at hx ⊢
  have hmod : p.length % uL = 0 := beq_iff_eq.mp hx
  have hdvd : uL ∣ p.length := Nat.dvd_of_mod_eq_zero hmod
  have hulen : (p.take uL).length = uL := by
    rw [List.length_take]
    exact Nat.min_eq_left (le_trans h2 (Nat.div_le_self _ _))
  rw [hulen]
  constructor
  · rw [Nat.cast_div hdvd (Nat.cast_ne_zero.mpr (by omega))]
    unfold ratDiv
    rw [Rat.mkRat_eq_divInt, Rat.divInt_eq_div]
    push_cast
    rfl
  · rw [Nat.div_mul_cancel hdvd] at hc1
    rw [hc1, List.take_length]

/-- C6 witness: `"abcabc"` decomposes exactly into `"abc"` repeated twice. -/
theorem claim6_witness :
    find_internal_repetition exUnitP = some ⟨['a', 'b', 'c'], ratDiv 6 3, true⟩ ∧
      repeatUnit (['a', 'b', 'c'] : List Char) (exUnitP.length / 3) = exUnitP := by
  have h : find_internal_repetition exUnitP = some ⟨['a', 'b', 'c'], ratDiv 6 3, true⟩ := by
    decide
  exact ⟨h, (claim6_exact_roundtrip exUnitP _ h rfl).2⟩

/-- C7: the unit returned by `find_internal_repetition` is the pattern's
leading slice of the smallest length in `1 .. len(pattern) // 2` satisfying
the repetition criterion; every smaller length in range fails it. -/
theorem claim7_minimal_unit (p : List Char) (r : InternalRep)
    (h : find_internal_repetition p = some r) :
    1 ≤ r.unit.length ∧ r.unit.length ≤ p.length / 2 ∧
      r.unit = p.take r.unit.length ∧ unitCriterion p r.unit.length ∧
      ∀ j, 1 ≤ j → j < r.unit.length → ¬ unitCriterion p j := by
  obtain ⟨uL, h1, h2, hc, hmin, hr⟩ := find_internal_repetition_sound h
  subst hr
  have hulen : (p.take uL).length = uL := by
    rw [List.length_take]
    exact Nat.min_eq_left (le_trans h2 (Nat.div_le_self _ _))
  simp only
  rw [hulen]
  exact ⟨h1, h2, rfl, hc, hmin⟩

/-- C7 witness: for `"abcabc"` the minimal unit has length 3 and lengths 1
and 2 fail the criterion. -/
theorem claim7_witness :
    unitCriterion exUnitP 3 ∧ ¬ unitCriterion exUnitP 2 ∧ ¬ unitCriterion exUnitP 1 := by
  have h : find_internal_repetition exUnitP = some ⟨['a', 'b', 'c'], ratDiv 6 3, true⟩ := by
    decide
  obtain ⟨ha, hb, hc, hd, he⟩ := claim7_minimal_unit exUnitP _ h
  exact ⟨hd, he 2 (by decide) (by decide), he 1 (by decide) (by decide)⟩

/-- Command-line configuration surface of the program: the positional
argument and the option strings registered with `add_argument` in `main`. -/
def recognizedOptions : List String :=
  ["json_file", "--min-length", "--min-occurrences", "--decompose", "--normalize",
    "--output", "-o"]

/-- C8 counterexample: no `overlapPolicy` (or `--overlap-policy`) option is
recognized by the program's configuration surface. -/
theorem claim8_counterexample :
    "overlapPolicy" ∉ recognizedOptions ∧ "--overlap-policy" ∉ recognizedOptions := by
  constructor <;> decide

/-- C8 amended: the occurrence-counting policy is not configurable — the
recognized options are exactly the five analysis/output switches, and
`find_all_occurrences` always advances the scan past the whole match, so the
non-overlapping policy is the only one implemented. -/
theorem claim8_amended :
    "overlapPolicy" ∉ recognizedOptions ∧
      (∀ (t p : List Char) (ps : List Nat), find_all_occurrences t p = some ps →
        ps.Pairwise (fun a b => a + p.length ≤ b)) := by
  refine ⟨by decide, ?_⟩
  intro t p ps h
  exact (findAllOccAux_sound h).2

/-- C8 amended witness: the scan over `"ababab"` yields positions spaced by
the pattern length. -/
theorem claim8_amended_witness :
    "overlapPolicy" ∉ recognizedOptions ∧
      ([0, 2, 4] : List Nat).Pairwise
        (fun a b => a + (['a', 'b'] : List Char).length ≤ b) :=
  ⟨claim8_amended.1, claim8_amended.2 exTextA ['a', 'b'] [0, 2, 4] rfl⟩

/-- C10: with `min_length ≥ 1` the detector terminates (the fueled embedding
returns a value); the occurrence scan terminates on every non-empty pattern;
on the empty pattern it returns `none` at every fuel (the source loop never
advances); and with `min_length = 0` the whole search diverges. -/
theorem claim10_termination :
    (∀ (t : List Char) (minLen minOcc : Nat), 1 ≤ minLen →
      (find_repeating_patterns t minLen minOcc).isSome) ∧
    (∀ (t p : List Char), 1 ≤ p.length → (find_all_occurrences t p).isSome) ∧
    (∀ (t : List Char) (fuel : Nat), findAllOccAux fuel t ([] : List Char) 0 = none) ∧
    (∀ (t : List Char) (minOcc : Nat), find_repeating_patterns t 0 minOcc = none) := by
  refine ⟨?_, ?_, ?_, ?_⟩
  · intro t minLen minOcc h1
    unfold find_repeating_patterns
    have hs := @findRepeatingScan_isSome t minLen minOcc h1
    cases hscan : findRepeatingScan t minLen minOcc with
    | none => rw [hscan] at hs; simp at hs
    | some sl => rfl
  · intro t p hp
    obtain ⟨ps, hps⟩ := find_all_occurrences_isSome hp
    rw [hps]
    rfl
  · intro t fuel
    exact findAllOccAux_empty_diverges t fuel 0 (Nat.zero_le _)
  · intro t minOcc
    unfold find_repeating_patterns
    rw [findRepeatingScan_zero]
    rfl

/-- C10 witness: termination on `"ababab"` with positive `min_length`,
divergence of the occurrence scan on the empty pattern and of the whole
search when `min_length = 0`. -/
theorem claim10_witness :
    (find_repeating_patterns exTextA 2 2).isSome ∧
      findAllOccAux 3 exTextA ([] : List Char) 0 = none ∧
      find_repeating_patterns exTextA 0 3 = none :=
  ⟨claim10_termination.1 exTextA 2 2 (by decide),
    claim10_termination.2.2.1 exTextA 3,
    claim10_termination.2.2.2 exTextA 3⟩

